import Mathlib

/-!
Shallow embedding of `src/main.py` (Journal2Markdown): an HTML journal to
Markdown batch converter.  External collaborators (HTML parser, free-text
date parser, image codec) are modelled as oracles; the filesystem effects of
the program are modelled as explicit state on the three output stores the
program writes into (`Media/Images`, `Media/Videos`, and the output root for
the per-entry Markdown files), each an association list from file name to
file bytes, newest entry first.
-/

namespace J2M

/-- Whitespace characters of Python's `str.strip()` / regex `\s` (ASCII part). -/
def isWs (c : Char) : Bool :=
  c = ' ' || c = '\t' || c = '\n' || c = '\r' || c = '\x0b' || c = '\x0c'

/-- Mirrors `re.sub(r"\s+", " ", s)` (src/main.py:145): each maximal run of
whitespace characters is replaced by a single space.  The boolean flag records
whether we are inside a whitespace run that has already emitted its space. -/
def collapseGo : Bool → List Char → List Char
  | _, [] => []
  | skipping, c :: cs =>
    if isWs c then
      if skipping then collapseGo true cs else ' ' :: collapseGo true cs
    else c :: collapseGo false cs

/-- Mirrors `re.sub(r"\s+", " ", s)` on strings. -/
def reSubWs (s : String) : String := ⟨collapseGo false s.data⟩

/-- Drop trailing whitespace characters. -/
def dropTrailWs (cs : List Char) : List Char :=
  (cs.reverse.dropWhile isWs).reverse

/-- Python's `str.strip()` on the character list: drop leading and trailing
whitespace. -/
def stripL (cs : List Char) : List Char :=
  dropTrailWs (cs.dropWhile isWs)

/-- Mirrors `element.get_text(strip=True)` for an element whose text content
is the single string `s`: Python strips the text node. -/
def getTextStrip (s : String) : String := ⟨stripL s.data⟩

/-- Split a character list into its maximal whitespace-free words, dropping
all whitespace; `acc` holds the reversed current word. -/
def wordsAux (acc : List Char) : List Char → List (List Char)
  | [] => if acc = [] then [] else [acc.reverse]
  | c :: cs =>
    if isWs c then
      if acc = [] then wordsAux [] cs else acc.reverse :: wordsAux [] cs
    else wordsAux (c :: acc) cs

/-- The whitespace-separated words of a character list. -/
def wordsOf (cs : List Char) : List (List Char) := wordsAux [] cs

/-- Join strings with a separator; mirrors Python's `sep.join(list)`. -/
def joinSep (sep : String) : List String → String
  | [] => ""
  | [x] => x
  | x :: y :: t => x ++ sep ++ joinSep sep (y :: t)

/-- The claim's reading of whitespace normalization, written from the spec's
words: every run of whitespace collapsed to a single space and
leading/trailing whitespace removed — i.e. the whitespace-free words joined
by single spaces. -/
def claimNormalize (s : String) : String :=
  joinSep " " ((wordsOf s.data).map fun w => ⟨w⟩)

/-- Split a character list on a separator character (used to take the last
path component, as `pathlib` does for `Path.name`). -/
def splitOnChar (sep : Char) : List Char → List (List Char)
  | [] => [[]]
  | c :: cs =>
    let r := splitOnChar sep cs
    if c = sep then [] :: r
    else
      match r with
      | [] => [[c]]
      | w :: ws => (c :: w) :: ws

/-- Mirrors `pathlib.Path(p).name`: the final path component. -/
def pathName (p : String) : String :=
  ⟨(splitOnChar '/' p.data).getLastD []⟩

/-- Mirrors `pathlib`'s stem rule on a file *name*: the suffix is removed iff
the last dot sits strictly inside the name (not first, not last character). -/
def nameStem (n : String) : String :=
  let cs := n.data
  match cs.reverse.findIdx? (fun c => c = '.') with
  | none => n
  | some k => if 0 < k ∧ k < cs.length - 1 then ⟨cs.take (cs.length - (k + 1))⟩ else n

/-- Mirrors `pathlib.Path(p).stem`. -/
def pathStem (p : String) : String := nameStem (pathName p)

/-- Mirrors Python's `str.lower()` for the ASCII format names used here. -/
def lowerStr (s : String) : String := ⟨s.data.map Char.toLower⟩

/-- Mirrors Python's `f"{n:02d}"` for the month/day fields. -/
def pad2 (n : Nat) : String :=
  if n < 10 then "0" ++ Nat.repr n else Nat.repr n

/-- Zero-pad a year to four digits; this is the *spec side* of claim C7
("four-digit year"), not something the code does. -/
def pad4 (n : Nat) : String :=
  if n < 10 then "000" ++ Nat.repr n
  else if n < 100 then "00" ++ Nat.repr n
  else if n < 1000 then "0" ++ Nat.repr n
  else Nat.repr n

/-! ## Data model -/

/-- The metadata Pillow reports for a decoded image: `img.format`,
`img.mode`, and whether `"transparency" in img.info`. -/
structure ImgMeta where
  format : String
  mode : String
  transparencyInfo : Bool
  deriving DecidableEq, Repr

/-- Mirrors `SUPPORTED_IMAGE_FORMATS` (src/main.py:32). -/
def SUPPORTED_IMAGE_FORMATS : List String := ["JPEG", "PNG"]

/-- The classifier decision implicit in `process_image` (src/main.py:103-116):
either pass the image through in its reported encoding, or re-encode it with
a target encoding and target color mode. -/
inductive Decision where
  | passThrough (fmt : String)
  | reencode (fmt : String) (mode : String)
  deriving DecidableEq, Repr

/-- The branch structure of src/main.py:103-110: images whose format is not
supported default to PNG/RGBA and are overridden to JPEG/RGB unless the mode
is RGBA or LA, or the mode is P with transparency metadata; supported formats
pass through (src/main.py:116). -/
def classify (img : ImgMeta) : Decision :=
  if img.format ∈ SUPPORTED_IMAGE_FORMATS then
    .passThrough img.format
  else
    if ¬(img.mode = "RGBA" ∨ img.mode = "LA") ∧ ¬(img.mode = "P" ∧ img.transparencyInfo) then
      .reencode "JPEG" "RGB"
    else
      .reencode "PNG" "RGBA"

/-- The target encoding a `Decision` carries. -/
def decisionFmt : Decision → String
  | .passThrough f => f
  | .reencode f _ => f

/-- A calendar date as returned by the external date parser
(`dateutil.parser.parse`). -/
structure Date where
  year : Nat
  month : Nat
  day : Nat
  deriving DecidableEq, Repr

/-- The image codec and raw-byte I/O oracle.  `decode p` is `Image.open(p)`
(`none` models the raised exception); `readBytes p` is `p.read_bytes()`
(`none` models a raised I/O error); `encode p mode fmt` is
`Image.open(p).convert(mode).save(..., format=fmt)`, returning the bytes the
save would produce, `none` modelling an exception raised while converting or
saving. -/
structure Codec where
  decode : String → Option ImgMeta
  readBytes : String → Option String
  encode : String → String → String → Option String

/-- The parsed document, abstracting the BeautifulSoup tree: the text content
of each `div.pageHeader` and `div.title` element, the `src` attributes of
`img` and `source` elements inside `div.assetGrid` elements (document order),
and the raw text content of each `p` inside a `div.bodyText`. -/
structure Doc where
  pageHeaders : List String
  titles : List String
  assetImgSrcs : List String
  assetVidSrcs : List String
  paragraphTexts : List String
  deriving DecidableEq, Repr

/-- One source entry file: its stem (`entry.stem`) and its parsed document. -/
structure Entry where
  stem : String
  doc : Doc
  deriving DecidableEq, Repr

/-- A directory's contents: file name to file bytes, newest write first. -/
abbrev FS : Type := List (String × String)

/-- First (most recent) binding of a name in a store. -/
def findFS (k : String) : FS → Option String
  | [] => none
  | (k', v) :: rest => if k = k' then some v else findFS k rest

/-- The output tree the program writes into: `Media/Images`, `Media/Videos`,
the Markdown files at the output root, and the diagnostic stream. -/
structure OutState where
  images : FS
  videos : FS
  mds : FS
  errs : List String
  deriving DecidableEq

/-! ## Operations, translated from src/main.py -/

/-- Mirrors `extract_date` (src/main.py:60-66): the stripped page-header
texts, the empty ones dropped, joined by spaces. -/
def headerJoined (d : Doc) : String :=
  joinSep " " ((d.pageHeaders.map getTextStrip).filter (fun t => t ≠ ""))

/-- Mirrors `extract_date` (src/main.py:60-66).  When the joined header text
is non-empty it is handed to the external date parser `pd`; a parser failure
*raises* (`dateutil` raises `ParserError`, and `extract_date` does not catch
it), modelled by `.error ()`. -/
def extract_date (pd : String → Option Date) (d : Doc) : Except Unit (Option Date) :=
  if headerJoined d = "" then .ok none
  else
    match pd (headerJoined d) with
    | some dt => .ok (some dt)
    | none => .error ()

/-- Mirrors `extract_title` (src/main.py:69-75): stripped title texts, empty
ones dropped, joined by spaces; an overall empty result becomes `none`
(`title or None`). -/
def extract_title (d : Doc) : Option String :=
  if joinSep " " ((d.titles.map getTextStrip).filter (fun s => s ≠ "")) = "" then none
  else some (joinSep " " ((d.titles.map getTextStrip).filter (fun s => s ≠ "")))

/-- Mirrors `extract_paragraphs` (src/main.py:141-148): each paragraph's
`get_text(strip=True)` run through `re.sub(r"\s+", " ", ·)`, keeping only the
non-empty results, in document order. -/
def extract_paragraphs (d : Doc) : List String :=
  (d.paragraphTexts.map (fun t => reSubWs (getTextStrip t))).filter (fun t => t ≠ "")

/-- Mirrors `(input_path / src).resolve(strict=False)` (src/main.py:84,92)
up to path normalization: joining the relative `src` to the input root. -/
def resolveSrc (inputPath src : String) : String := inputPath ++ "/" ++ src

/-- Mirrors `collect_image_paths` (src/main.py:82-87). -/
def collect_image_paths (d : Doc) (inputPath : String) : List String :=
  d.assetImgSrcs.map (resolveSrc inputPath)

/-- Mirrors `collect_video_paths` (src/main.py:90-95). -/
def collect_video_paths (d : Doc) (inputPath : String) : List String :=
  d.assetVidSrcs.map (resolveSrc inputPath)

/-- The target file name `base.with_suffix(f".{fmt.lower()}")` computed by
`process_image` (src/main.py:111,116), where `base = images_dir /
image_path.stem`. -/
def imgTargetName (imagePath fmt : String) : String :=
  nameStem (pathStem imagePath) ++ "." ++ lowerStr fmt

/-- Mirrors `process_image` (src/main.py:98-126).  Unsupported formats are
converted to the classifier's target mode and saved under its target
encoding; supported formats are raw-copied, falling back to a Pillow re-save
in the original format if the raw copy raises.  An existing target is never
rewritten.  Any exception is caught: a warning naming the source path goes to
the diagnostic stream and the result is `none`. -/
def process_image (c : Codec) (imagePath : String) (st : OutState) :
    OutState × Option String :=
  match c.decode imagePath with
  | none =>
      ({ st with errs := ("Failed to process image '" ++ imagePath ++ "'") :: st.errs },
       none)
  | some img =>
    match classify img with
    | .reencode tfmt tmode =>
      if (findFS (imgTargetName imagePath tfmt) st.images).isSome then
        (st, some ("Media/Images/" ++ imgTargetName imagePath tfmt))
      else
        match c.encode imagePath tmode tfmt with
        | some bytes =>
            ({ st with images := (imgTargetName imagePath tfmt, bytes) :: st.images },
             some ("Media/Images/" ++ imgTargetName imagePath tfmt))
        | none =>
            ({ st with errs := ("Failed to process image '" ++ imagePath ++ "'") :: st.errs },
             none)
    | .passThrough fmt =>
      if (findFS (imgTargetName imagePath fmt) st.images).isSome then
        (st, some ("Media/Images/" ++ imgTargetName imagePath fmt))
      else
        match c.readBytes imagePath with
        | some bytes =>
            ({ st with images := (imgTargetName imagePath fmt, bytes) :: st.images },
             some ("Media/Images/" ++ imgTargetName imagePath fmt))
        | none =>
          match c.encode imagePath img.mode img.format with
          | some bytes =>
              ({ st with images := (imgTargetName imagePath fmt, bytes) :: st.images },
               some ("Media/Images/" ++ imgTargetName imagePath fmt))
          | none =>
              ({ st with errs := ("Failed to process image '" ++ imagePath ++ "'") :: st.errs },
               none)

/-- Mirrors `process_video` (src/main.py:129-138): verbatim byte copy keyed
by the source file name, skipped when the target exists; an I/O failure is
caught, logged and yields `none`. -/
def process_video (c : Codec) (videoPath : String) (st : OutState) :
    OutState × Option String :=
  if (findFS (pathName videoPath) st.videos).isSome then
    (st, some ("Media/Videos/" ++ pathName videoPath))
  else
    match c.readBytes videoPath with
    | some bytes =>
        ({ st with videos := (pathName videoPath, bytes) :: st.videos },
         some ("Media/Videos/" ++ pathName videoPath))
    | none =>
        ({ st with errs := ("Failed to copy video '" ++ videoPath ++ "'") :: st.errs },
         none)

/-- The image loop of `process_entry` (src/main.py:167-171): materialize each
image in order, keeping the returned relative paths of the successes. -/
def process_images (c : Codec) : List String → OutState → OutState × List String
  | [], st => (st, [])
  | p :: ps, st =>
    let r := process_image c p st
    let rest := process_images c ps r.1
    (rest.1, match r.2 with | some s => s :: rest.2 | none => rest.2)

/-- The video loop of `process_entry` (src/main.py:173-177). -/
def process_videos (c : Codec) : List String → OutState → OutState × List String
  | [], st => (st, [])
  | p :: ps, st =>
    let r := process_video c p st
    let rest := process_videos c ps r.1
    (rest.1, match r.2 with | some s => s :: rest.2 | none => rest.2)

/-- Mirrors the output-file-name expression of `process_entry`
(src/main.py:181-185): `f"{date.year}-{date.month:02d}-{date.day:02d}.md"`
when a date was extracted, else `f"{entry.stem}.md"`. -/
def out_file_name (date : Option Date) (stem : String) : String :=
  match date with
  | some d => Nat.repr d.year ++ "-" ++ pad2 d.month ++ "-" ++ pad2 d.day ++ ".md"
  | none => stem ++ ".md"

/-- The ordered content blocks of `process_entry` (src/main.py:187-194):
title heading if truthy, image embeds, video embeds, paragraphs. -/
def mdBlocks (title : Option String) (images videos paragraphs : List String) :
    List String :=
  (match title with
   | some t => if t = "" then [] else ["# " ++ t]
   | none => []) ++
  images.map (fun i => "![Image](" ++ i ++ ")") ++
  videos.map (fun v => "![Video](" ++ v ++ ")") ++
  paragraphs

/-- The `content` string of `process_entry` before the trailing newline
(src/main.py:196): blocks joined by blank lines when any block exists. -/
def assembleContent (title : Option String) (images videos paragraphs : List String) :
    String :=
  if mdBlocks title images videos paragraphs = [] then ""
  else joinSep "\n\n" (mdBlocks title images videos paragraphs)

/-- Mirrors the content assembly of `process_entry` (src/main.py:196-198):
blocks joined by blank lines, and a trailing newline appended iff the joined
content is non-empty (`if content:`). -/
def assemble (title : Option String) (images videos paragraphs : List String) :
    String :=
  if assembleContent title images videos paragraphs = "" then
    assembleContent title images videos paragraphs
  else assembleContent title images videos paragraphs ++ "\n"

/-- The output state after the image and video loops of `process_entry`
(src/main.py:167-177): the images are materialized first, then the videos. -/
def entryMediaState (c : Codec) (inputPath : String) (d : Doc) (st : OutState) :
    OutState :=
  (process_videos c (collect_video_paths d inputPath)
    (process_images c (collect_image_paths d inputPath) st).1).1

/-- The relative paths of the successfully materialized images of one entry
(the `images` list of src/main.py:167-171). -/
def entryImageRels (c : Codec) (inputPath : String) (d : Doc) (st : OutState) :
    List String :=
  (process_images c (collect_image_paths d inputPath) st).2

/-- The relative paths of the successfully materialized videos of one entry
(the `videos` list of src/main.py:173-177). -/
def entryVideoRels (c : Codec) (inputPath : String) (d : Doc) (st : OutState) :
    List String :=
  (process_videos c (collect_video_paths d inputPath)
    (process_images c (collect_image_paths d inputPath) st).1).2

/-- The Markdown text `process_entry` writes for one entry
(src/main.py:187-198). -/
def entryContent (c : Codec) (inputPath : String) (d : Doc) (st : OutState) :
    String :=
  assemble (extract_title d) (entryImageRels c inputPath d st)
    (entryVideoRels c inputPath d st) (extract_paragraphs d)

/-- Mirrors `process_entry` (src/main.py:151-201).  A date-parser failure
raised out of `extract_date` propagates (`.error`); otherwise the assets are
materialized in order and the Markdown file is written unconditionally. -/
def process_entry (pd : String → Option Date) (c : Codec) (inputPath : String)
    (e : Entry) (st : OutState) : Except Unit OutState :=
  match extract_date pd e.doc with
  | .error u => .error u
  | .ok date =>
    .ok { entryMediaState c inputPath e.doc st with
          mds := (out_file_name date e.stem, entryContent c inputPath e.doc st)
                 :: (entryMediaState c inputPath e.doc st).mds }

/-- One iteration of the loop of `process_files` (src/main.py:208-215): the
entry is processed; an exception is caught, a warning naming the entry is
logged, and the state is otherwise unchanged. -/
def entry_step (pd : String → Option Date) (c : Codec) (inputPath : String)
    (st : OutState) (e : Entry) : OutState :=
  match process_entry pd c inputPath e st with
  | .ok s => s
  | .error _ =>
    { st with errs := ("Failed to process entry '" ++ e.stem ++ "'") :: st.errs }

/-- Mirrors `process_files` (src/main.py:204-216): every entry is attempted;
an exception raised by `process_entry` is caught, a warning naming the entry
is logged, and the batch continues with the state unchanged. -/
def process_files (pd : String → Option Date) (c : Codec) (inputPath : String) :
    List Entry → OutState → OutState
  | [], st => st
  | e :: rest, st => process_files pd c inputPath rest (entry_step pd c inputPath st e)

/-- The relative path `process_image` returns for a source path, under the
no-partial-failure hypothesis: `none` exactly when the decode fails,
otherwise the target's relative path, independent of the output state. -/
def imgRetSpec (c : Codec) (p : String) : Option String :=
  match c.decode p with
  | none => none
  | some img => some ("Media/Images/" ++ imgTargetName p (decisionFmt (classify img)))

/-- Image sources on which materialization can only fail at decode time:
once decoded, the raw read and every re-encode succeed. -/
def GoodImages (c : Codec) (ps : List String) : Prop :=
  ∀ p ∈ ps, ∀ img, c.decode p = some img →
    c.readBytes p ≠ none ∧ ∀ m f, c.encode p m f ≠ none

/-- Video sources whose raw read succeeds. -/
def GoodVideos (c : Codec) (ps : List String) : Prop :=
  ∀ p ∈ ps, c.readBytes p ≠ none

/-- An entry whose media sources only fail at decode time. -/
def GoodEntry (c : Codec) (inp : String) (e : Entry) : Prop :=
  GoodImages c (collect_image_paths e.doc inp) ∧
  GoodVideos c (collect_video_paths e.doc inp)

/-- A batch whose media materializations never fail partway. -/
def NoPartialFailure (c : Codec) (inp : String) (es : List Entry) : Prop :=
  ∀ e ∈ es, GoodEntry c inp e

/-- Every media target of the document already exists in the output state. -/
def CoveredDoc (c : Codec) (inp : String) (d : Doc) (st : OutState) : Prop :=
  (∀ p ∈ collect_image_paths d inp, ∀ img, c.decode p = some img →
    (findFS (imgTargetName p (decisionFmt (classify img))) st.images).isSome) ∧
  (∀ p ∈ collect_video_paths d inp, (findFS (pathName p) st.videos).isSome)

/-- Every media target of every date-extracting entry already exists. -/
def Covered (pd : String → Option Date) (c : Codec) (inp : String)
    (es : List Entry) (st : OutState) : Prop :=
  ∀ e ∈ es, ∀ d, extract_date pd e.doc = .ok d → CoveredDoc c inp e.doc st

/-- The state-independent image relative paths of one entry under the
no-partial-failure hypothesis. -/
def entrySpecImageRels (c : Codec) (inp : String) (d : Doc) : List String :=
  (collect_image_paths d inp).filterMap (imgRetSpec c)

/-- The state-independent video relative paths of one entry under the
no-partial-failure hypothesis. -/
def entrySpecVideoRels (inp : String) (d : Doc) : List String :=
  (collect_video_paths d inp).map (fun p => "Media/Videos/" ++ pathName p)

/-- The state-independent Markdown content of one entry under the
no-partial-failure hypothesis. -/
def entrySpecContent (c : Codec) (inp : String) (d : Doc) : String :=
  assemble (extract_title d) (entrySpecImageRels c inp d)
    (entrySpecVideoRels inp d) (extract_paragraphs d)

/-- The Markdown files the batch writes, in batch order, under the
no-partial-failure hypothesis. -/
def mdWrites (pd : String → Option Date) (c : Codec) (inp : String) :
    List Entry → List (String × String)
  | [] => []
  | e :: rest =>
    (match extract_date pd e.doc with
     | .ok date => [(out_file_name date e.stem, entrySpecContent c inp e.doc)]
     | .error _ => []) ++ mdWrites pd c inp rest

/-! ## Spec-side definitions for refinement claims -/

/-- Claim C1's decision table, written from the spec's words: supported
encodings pass through; alpha-carrying modes, or palette mode with
transparency metadata, re-encode to PNG/RGBA; everything else to JPEG/RGB. -/
def claimDecision (img : ImgMeta) : Decision :=
  if img.format = "JPEG" ∨ img.format = "PNG" then
    .passThrough img.format
  else if img.mode = "RGBA" ∨ img.mode = "LA" ∨ (img.mode = "P" ∧ img.transparencyInfo) then
    .reencode "PNG" "RGBA"
  else
    .reencode "JPEG" "RGB"

/-- Concatenate words with single-space separators, at the character level. -/
def joinWordsC : List (List Char) → List Char
  | [] => []
  | [w] => w
  | w :: x :: t => w ++ ' ' :: joinWordsC (x :: t)

/-! ## Concrete objects used by witnesses and counterexamples -/

/-- An empty output tree. -/
def emptySt : OutState := ⟨[], [], [], []⟩

/-- A codec for which every external operation fails. -/
def cNone : Codec := ⟨fun _ => none, fun _ => none, fun _ _ _ => none⟩

/-- A codec where every image decodes as a plain JPEG and all I/O succeeds. -/
def cJpeg : Codec :=
  ⟨fun _ => some ⟨"JPEG", "RGB", false⟩, fun _ => some "RAW", fun _ _ _ => some "ENC"⟩

/-- A codec where every image decodes as an opaque HEIF, raw reads fail, and
re-encoding succeeds only for the source `IN/d2/x.heic`: it models a
truncated image at `IN/d1/x.heic` whose header decodes but whose pixel data
raises during conversion. -/
def cHeif : Codec :=
  ⟨fun _ => some ⟨"HEIF", "RGB", false⟩, fun _ => none,
   fun p _ _ => if p = "IN/d2/x.heic" then some "PNGBYTES" else none⟩

/-- A date parser that recognizes only `"January 5, 2024"`. -/
def pdJan : String → Option Date :=
  fun s => if s = "January 5, 2024" then some ⟨2024, 1, 5⟩ else none

/-- An entry whose page header holds a recognizable date. -/
def eJan : Entry := ⟨"e", ⟨["January 5, 2024"], [], [], [], []⟩⟩

/-- An entry whose page header text no date parser accepts. -/
def eFail : Entry := ⟨"entry1", ⟨["not a date"], [], [], [], []⟩⟩

/-- An entry with nothing in it. -/
def eEmpty : Entry := ⟨"empty", ⟨[], [], [], [], []⟩⟩

/-- An entry with two image references in distinct subdirectories sharing one
base name, so both resolve to the same output target. -/
def eCollide : Entry := ⟨"e", ⟨[], [], ["d1/x.heic", "d2/x.heic"], [], []⟩⟩

/-- A codec that fails to decode exactly one path and decodes everything else
as a plain JPEG with all I/O succeeding. -/
def cMixed : Codec :=
  ⟨fun p => if p = "IN/bad.jpg" then none else some ⟨"JPEG", "RGB", false⟩,
   fun _ => some "RAW", fun _ _ _ => some "ENC"⟩

/-- A codec where images decode as plain JPEGs, raw reads fail, and
re-encoding succeeds. -/
def cFallback : Codec :=
  ⟨fun _ => some ⟨"JPEG", "RGB", false⟩, fun _ => none, fun _ _ _ => some "ENC"⟩

/-- A codec where images decode as plain JPEGs but both the raw read and
every save fail. -/
def cPassFail : Codec :=
  ⟨fun _ => some ⟨"JPEG", "RGB", false⟩, fun _ => none, fun _ _ _ => none⟩

/-- An output tree already holding one image, one video and one Markdown
file. -/
def stPre : OutState :=
  ⟨[("x.jpeg", "B")], [("v.mov", "V")], [("empty.md", "OLDMD")], []⟩

/-- An entry with a title, one image, one video and one paragraph. -/
def eAsset : Entry := ⟨"a", ⟨[], ["My title"], ["x.jpg"], ["v.mov"], ["Hello"]⟩⟩

/-! ## Lemmas about whitespace normalization (claim C9) -/

theorem joinWordsC_cons₂ (w x : List Char) (t : List (List Char)) :
    joinWordsC (w :: x :: t) = w ++ ' ' :: joinWordsC (x :: t) := rfl

theorem dropWhile_append_singleton (p : Char → Bool) (l : List Char) (c : Char) :
    (l ++ [c]).dropWhile p =
      if l.dropWhile p = [] then (if p c then [] else [c])
      else l.dropWhile p ++ [c] := by
  induction l with
  | nil => cases hp : p c <;> simp [List.dropWhile, hp]
  | cons a l ih =>
    by_cases ha : p a
    · simpa [List.dropWhile, ha] using ih
    · simp [List.dropWhile, ha]

theorem dropTrailWs_nil : dropTrailWs [] = [] := rfl

theorem dropTrailWs_eq_nil_iff (cs : List Char) :
    dropTrailWs cs = [] ↔ ∀ c ∈ cs, isWs c := by
  unfold dropTrailWs
  rw [List.reverse_eq_nil_iff, List.dropWhile_eq_nil_iff]
  constructor
  · intro h c hc
    exact h c (List.mem_reverse.mpr hc)
  · intro h c hc
    exact h c (List.mem_reverse.mp hc)

theorem dropTrailWs_cons_not_ws (c : Char) (cs : List Char) (hc : ¬ isWs c) :
    dropTrailWs (c :: cs) = c :: dropTrailWs cs := by
  unfold dropTrailWs
  rw [List.reverse_cons, dropWhile_append_singleton]
  by_cases h : cs.reverse.dropWhile isWs = []
  · simp [h, hc]
  · simp [h]

theorem dropTrailWs_cons_ws_nil (c : Char) (cs : List Char) (hc : isWs c)
    (h : dropTrailWs cs = []) : dropTrailWs (c :: cs) = [] := by
  unfold dropTrailWs at *
  rw [List.reverse_eq_nil_iff] at h
  rw [List.reverse_cons, dropWhile_append_singleton, if_pos h, if_pos hc]
  rfl

theorem dropTrailWs_cons_ws_ne (c : Char) (cs : List Char) (h : dropTrailWs cs ≠ []) :
    dropTrailWs (c :: cs) = c :: dropTrailWs cs := by
  unfold dropTrailWs at *
  have h' : List.dropWhile isWs cs.reverse ≠ [] := by
    intro hh
    exact h (by rw [hh]; rfl)
  rw [List.reverse_cons, dropWhile_append_singleton, if_neg h']
  simp

theorem wordsAux_ne_nil_of_acc_ne (acc : List Char) (h : acc ≠ []) (cs : List Char) :
    wordsAux acc cs ≠ [] := by
  induction cs generalizing acc with
  | nil => simp [wordsAux, h]
  | cons c cs ih =>
    by_cases hc : isWs c
    · simp [wordsAux, h, hc]
    · simpa [wordsAux, h, hc] using ih (c :: acc) (by simp)

theorem wordsAux_nil_eq_nil_iff (cs : List Char) :
    wordsAux [] cs = [] ↔ ∀ c ∈ cs, isWs c := by
  induction cs with
  | nil => simp [wordsAux]
  | cons c cs ih =>
    by_cases hc : isWs c
    · simpa [wordsAux, hc] using ih
    · have h1 : wordsAux [] (c :: cs) = wordsAux [c] cs := by simp [wordsAux, hc]
      rw [h1]
      constructor
      · intro h
        exact absurd h (wordsAux_ne_nil_of_acc_ne [c] (by simp) cs)
      · intro h
        exact absurd (h c (List.mem_cons_self c cs)) (by simpa using hc)

theorem wordsAux_cons_acc_ne (acc : List Char) (h : acc ≠ []) (c : Char) (cs : List Char) :
    wordsAux acc (c :: cs) =
      if isWs c then acc.reverse :: wordsAux [] cs else wordsAux (c :: acc) cs := by
  simp [wordsAux, h]

theorem wordsAux_dropWhile (cs : List Char) :
    wordsAux [] (cs.dropWhile isWs) = wordsAux [] cs := by
  induction cs with
  | nil => rfl
  | cons c cs ih =>
    by_cases hc : isWs c
    · simpa [List.dropWhile, hc, wordsAux] using ih
    · simp [List.dropWhile, hc]

theorem collapseGo_true_eq_false (cs : List Char)
    (h : ∀ c cs', cs = c :: cs' → ¬ isWs c) :
    collapseGo true cs = collapseGo false cs := by
  cases cs with
  | nil => rfl
  | cons c cs' => simp [collapseGo, h c cs' rfl]

/-- Joint induction relating the code's collapse-after-strip to the claim's
words-joined-by-single-spaces normal form. -/
theorem collapse_dropTrail_eq_joinWords (cs : List Char) :
    collapseGo true (dropTrailWs cs) = joinWordsC (wordsAux [] cs) ∧
    (∀ acc, acc ≠ [] →
      acc.reverse ++ collapseGo false (dropTrailWs cs) = joinWordsC (wordsAux acc cs)) := by
  induction cs with
  | nil =>
    refine ⟨rfl, ?_⟩
    intro acc h
    cases acc with
    | nil => exact absurd rfl h
    | cons a as => simp [dropTrailWs, collapseGo, wordsAux, joinWordsC]
  | cons c cs ih =>
    obtain ⟨ih0, ih1⟩ := ih
    by_cases hc : isWs c
    · constructor
      · -- leading whitespace is skipped in skipping mode and by wordsAux
        by_cases hnil : dropTrailWs cs = []
        · rw [dropTrailWs_cons_ws_nil c cs hc hnil]
          have : ∀ x ∈ cs, isWs x := (dropTrailWs_eq_nil_iff cs).mp hnil
          have hw : wordsAux [] (c :: cs) = [] := by
            rw [wordsAux_nil_eq_nil_iff]
            intro x hx
            rcases List.mem_cons.mp hx with h | h
            · exact h ▸ hc
            · exact this x h
          rw [hw]
          rfl
        · rw [dropTrailWs_cons_ws_ne c cs hnil]
          have h1 : collapseGo true (c :: dropTrailWs cs) = collapseGo true (dropTrailWs cs) := by
            simp [collapseGo, hc]
          rw [h1, ih0]
          simp [wordsAux, hc]
      · intro acc hacc
        rw [wordsAux_cons_acc_ne acc hacc c cs, if_pos hc]
        by_cases hnil : dropTrailWs cs = []
        · rw [dropTrailWs_cons_ws_nil c cs hc hnil]
          have : ∀ x ∈ cs, isWs x := (dropTrailWs_eq_nil_iff cs).mp hnil
          have hw : wordsAux [] cs = [] := (wordsAux_nil_eq_nil_iff cs).mpr this
          rw [hw]
          simp [collapseGo, joinWordsC]
        · rw [dropTrailWs_cons_ws_ne c cs hnil]
          have hw : wordsAux [] cs ≠ [] := by
            intro hw
            exact hnil ((dropTrailWs_eq_nil_iff cs).mpr ((wordsAux_nil_eq_nil_iff cs).mp hw))
          obtain ⟨w, ws, hws⟩ := List.exists_cons_of_ne_nil hw
          rw [hws, joinWordsC_cons₂, ← hws, ← ih0]
          have h1 : collapseGo false (c :: dropTrailWs cs) =
              ' ' :: collapseGo true (dropTrailWs cs) := by
            simp [collapseGo, hc]
          rw [h1]
    · constructor
      · rw [dropTrailWs_cons_not_ws c cs hc]
        have h1 : collapseGo true (c :: dropTrailWs cs) =
            c :: collapseGo false (dropTrailWs cs) := by
          simp [collapseGo, hc]
        rw [h1]
        have h2 : wordsAux [] (c :: cs) = wordsAux [c] cs := by
          simp [wordsAux, hc]
        rw [h2, ← ih1 [c] (by simp)]
        rfl
      · intro acc hacc
        rw [dropTrailWs_cons_not_ws c cs hc,
            wordsAux_cons_acc_ne acc hacc c cs, if_neg hc,
            ← ih1 (c :: acc) (by simp)]
        have h1 : collapseGo false (c :: dropTrailWs cs) =
            c :: collapseGo false (dropTrailWs cs) := by
          simp [collapseGo, hc]
        rw [h1]
        simp

theorem dropWhile_head_not (p : Char → Bool) (cs : List Char) (c : Char)
    (cs' : List Char) (h : cs.dropWhile p = c :: cs') : ¬ p c := by
  induction cs with
  | nil => cases h
  | cons a l ih =>
    rw [List.dropWhile_cons] at h
    by_cases ha : p a
    · rw [if_pos ha] at h
      exact ih h
    · rw [if_neg ha] at h
      cases h
      exact ha

/-- The head of `stripL cs` is never whitespace. -/
theorem stripL_head_not_ws (cs : List Char) (c : Char) (cs' : List Char)
    (h : stripL cs = c :: cs') : ¬ isWs c := by
  unfold stripL at h
  generalize hg : cs.dropWhile isWs = ds at h
  cases ds with
  | nil =>
    rw [dropTrailWs_nil] at h
    cases h
  | cons d ds' =>
    have hd : ¬ isWs d := dropWhile_head_not isWs cs d ds' hg
    rw [dropTrailWs_cons_not_ws d ds' hd] at h
    cases h
    exact hd

theorem joinSep_mk_data (ws : List (List Char)) :
    (joinSep " " (ws.map fun w => (⟨w⟩ : String))).data = joinWordsC ws := by
  induction ws with
  | nil => rfl
  | cons w t ih =>
    cases t with
    | nil => rfl
    | cons x t' =>
      have h1 : joinSep " " ((w :: x :: t').map fun w => (⟨w⟩ : String)) =
          (⟨w⟩ : String) ++ " " ++
            joinSep " " ((x :: t').map fun w => (⟨w⟩ : String)) := rfl
      rw [h1, String.data_append, String.data_append, ih, joinWordsC_cons₂]
      simp

/-- The code's per-paragraph normalization equals the claim's: whitespace
runs collapsed to single spaces and leading/trailing whitespace removed,
i.e. the whitespace-free words joined by single spaces. -/
theorem pyNormalize_eq_claimNormalize (s : String) :
    reSubWs (getTextStrip s) = claimNormalize s := by
  have hdata : (reSubWs (getTextStrip s)).data = collapseGo false (stripL s.data) := rfl
  apply String.ext
  rw [hdata]
  show collapseGo false (stripL s.data) = (claimNormalize s).data
  unfold claimNormalize
  rw [joinSep_mk_data]
  have hcoll : collapseGo false (stripL s.data) = collapseGo true (stripL s.data) := by
    refine (collapseGo_true_eq_false _ ?_).symm
    intro c cs' hcons
    exact stripL_head_not_ws s.data c cs' hcons
  rw [hcoll]
  unfold stripL
  rw [(collapse_dropTrail_eq_joinWords (s.data.dropWhile isWs)).1, wordsAux_dropWhile]
  rfl

/-! ## Generic string and store lemmas -/

theorem append_ne_empty (a b : String) (ha : a ≠ "") : a ++ b ≠ "" := by
  intro h
  apply ha
  have hd := congrArg String.data h
  rw [String.data_append] at hd
  exact String.ext (List.append_eq_nil.mp hd).1

theorem joinSep_ne_empty (sep b : String) (bs : List String) (hb : b ≠ "") :
    joinSep sep (b :: bs) ≠ "" := by
  cases bs with
  | nil => simpa [joinSep] using hb
  | cons x t => exact append_ne_empty (b ++ sep) _ (append_ne_empty b sep hb)

theorem findFS_cons (k k' v : String) (fs : FS) :
    findFS k ((k', v) :: fs) = if k = k' then some v else findFS k fs := rfl

/-! ## State-shape lemmas for the materializers -/

theorem findFS_cons_preserve (fs : FS) (n b tname bytes : String)
    (h : findFS n fs = some b) (hnone : ¬ (findFS tname fs).isSome = true) :
    findFS n ((tname, bytes) :: fs) = some b := by
  rw [findFS_cons]
  by_cases he : n = tname
  · exfalso
    apply hnone
    rw [← he, h]
    rfl
  · rw [if_neg he]
    exact h

theorem process_image_mds_videos (c : Codec) (p : String) (st : OutState) :
    (process_image c p st).1.mds = st.mds ∧ (process_image c p st).1.videos = st.videos := by
  unfold process_image
  constructor <;> (repeat' split) <;> rfl

theorem process_image_images_preserved (c : Codec) (p : String) (st : OutState)
    (n b : String) (h : findFS n st.images = some b) :
    findFS n (process_image c p st).1.images = some b := by
  unfold process_image
  repeat' split
  all_goals first
    | exact h
    | (apply findFS_cons_preserve _ _ _ _ _ h; assumption)

theorem process_video_images_mds (c : Codec) (p : String) (st : OutState) :
    (process_video c p st).1.images = st.images ∧ (process_video c p st).1.mds = st.mds := by
  unfold process_video
  constructor <;> (repeat' split) <;> rfl

theorem process_video_videos_preserved (c : Codec) (p : String) (st : OutState)
    (n b : String) (h : findFS n st.videos = some b) :
    findFS n (process_video c p st).1.videos = some b := by
  unfold process_video
  repeat' split
  all_goals first
    | exact h
    | (apply findFS_cons_preserve _ _ _ _ _ h; assumption)

theorem process_images_mds_videos (c : Codec) (ps : List String) (st : OutState) :
    (process_images c ps st).1.mds = st.mds ∧
    (process_images c ps st).1.videos = st.videos := by
  induction ps generalizing st with
  | nil => exact ⟨rfl, rfl⟩
  | cons p ps ih =>
    have h1 := process_image_mds_videos c p st
    have h2 := ih (process_image c p st).1
    exact ⟨by rw [process_images, h2.1, h1.1], by rw [process_images, h2.2, h1.2]⟩

theorem process_images_images_preserved (c : Codec) (ps : List String) (st : OutState)
    (n b : String) (h : findFS n st.images = some b) :
    findFS n (process_images c ps st).1.images = some b := by
  induction ps generalizing st with
  | nil => exact h
  | cons p ps ih =>
    rw [process_images]
    exact ih (process_image c p st).1 (process_image_images_preserved c p st n b h)

theorem process_videos_images_mds (c : Codec) (ps : List String) (st : OutState) :
    (process_videos c ps st).1.images = st.images ∧
    (process_videos c ps st).1.mds = st.mds := by
  induction ps generalizing st with
  | nil => exact ⟨rfl, rfl⟩
  | cons p ps ih =>
    have h1 := process_video_images_mds c p st
    have h2 := ih (process_video c p st).1
    exact ⟨by rw [process_videos, h2.1, h1.1], by rw [process_videos, h2.2, h1.2]⟩

theorem process_videos_videos_preserved (c : Codec) (ps : List String) (st : OutState)
    (n b : String) (h : findFS n st.videos = some b) :
    findFS n (process_videos c ps st).1.videos = some b := by
  induction ps generalizing st with
  | nil => exact h
  | cons p ps ih =>
    rw [process_videos]
    exact ih (process_video c p st).1 (process_video_videos_preserved c p st n b h)

/-! ## Dependence of the image loop on the image store only -/

theorem process_image_dep (c : Codec) (p : String) (st st' : OutState)
    (h : st.images = st'.images) :
    (process_image c p st).1.images = (process_image c p st').1.images ∧
    (process_image c p st).2 = (process_image c p st').2 := by
  unfold process_image
  rw [h]
  constructor <;> (repeat' split) <;> simp_all

theorem process_images_dep (c : Codec) (ps : List String) (st st' : OutState)
    (h : st.images = st'.images) :
    (process_images c ps st).1.images = (process_images c ps st').1.images ∧
    (process_images c ps st).2 = (process_images c ps st').2 := by
  induction ps generalizing st st' with
  | nil => exact ⟨h, rfl⟩
  | cons p ps ih =>
    have h1 := process_image_dep c p st st' h
    have h2 := ih (process_image c p st).1 (process_image c p st').1 h1.1
    refine ⟨?_, ?_⟩
    · rw [process_images, process_images]
      exact h2.1
    · rw [process_images, process_images, h1.2, h2.2]

theorem process_image_of_decode_fail (c : Codec) (p : String) (st : OutState)
    (hbad : c.decode p = none) :
    process_image c p st =
      ({ st with errs := ("Failed to process image '" ++ p ++ "'") :: st.errs }, none) := by
  unfold process_image
  rw [hbad]

/-- Dropping an undecodable image from the list changes neither the returned
relative paths nor the resulting image store. -/
theorem process_images_skip_bad (c : Codec) (bad : String) (ps1 ps2 : List String)
    (st : OutState) (hbad : c.decode bad = none) :
    (process_images c (ps1 ++ bad :: ps2) st).2 = (process_images c (ps1 ++ ps2) st).2 ∧
    (process_images c (ps1 ++ bad :: ps2) st).1.images =
      (process_images c (ps1 ++ ps2) st).1.images := by
  induction ps1 generalizing st with
  | nil =>
    rw [List.nil_append, List.nil_append, process_images,
        process_image_of_decode_fail c bad st hbad]
    have hdep := process_images_dep c ps2
      { st with errs := ("Failed to process image '" ++ bad ++ "'") :: st.errs } st rfl
    exact ⟨hdep.2, hdep.1⟩
  | cons p ps1 ih =>
    rw [List.cons_append, List.cons_append, process_images, process_images]
    have hih := ih (process_image c p st).1
    exact ⟨by rw [hih.1], hih.2⟩

/-- Dropping an image whose materialization fails — in any mode: it returns
`none` having only logged a warning — changes neither the returned relative
paths of its siblings nor the resulting image store. -/
theorem process_images_skip_failed (c : Codec) (bad : String) (ps2 : List String) :
    ∀ (ps1 : List String) (st : OutState),
      process_image c bad (process_images c ps1 st).1 =
        ({ (process_images c ps1 st).1 with
           errs := ("Failed to process image '" ++ bad ++ "'")
                   :: (process_images c ps1 st).1.errs }, none) →
      (process_images c (ps1 ++ bad :: ps2) st).2 =
        (process_images c (ps1 ++ ps2) st).2 ∧
      (process_images c (ps1 ++ bad :: ps2) st).1.images =
        (process_images c (ps1 ++ ps2) st).1.images := by
  intro ps1
  induction ps1 with
  | nil =>
    intro st hbad
    have h0 : (process_images c ([] : List String) st).1 = st := rfl
    rw [h0] at hbad
    rw [List.nil_append, List.nil_append, process_images, hbad]
    have hdep := process_images_dep c ps2
      { st with errs := ("Failed to process image '" ++ bad ++ "'") :: st.errs } st rfl
    exact ⟨hdep.2, hdep.1⟩
  | cons p ps1 ih =>
    intro st hbad
    have hconv : (process_images c (p :: ps1) st).1 =
        (process_images c ps1 (process_image c p st).1).1 := by
      rw [process_images]
    rw [hconv] at hbad
    have hih := ih (process_image c p st).1 hbad
    rw [List.cons_append, List.cons_append, process_images, process_images]
    exact ⟨by rw [hih.1], hih.2⟩

/-! ## Non-emptiness of the Markdown blocks -/

theorem extract_paragraphs_mem_ne (d : Doc) (b : String)
    (hb : b ∈ extract_paragraphs d) : b ≠ "" := by
  unfold extract_paragraphs at hb
  have := (List.mem_filter.mp hb).2
  exact of_decide_eq_true this

theorem extract_title_ne (d : Doc) (t : String) (h : extract_title d = some t) :
    t ≠ "" := by
  unfold extract_title at h
  by_cases he : joinSep " " ((d.titles.map getTextStrip).filter (fun s => s ≠ "")) = ""
  · rw [if_pos he] at h
    cases h
  · rw [if_neg he] at h
    cases h
    exact he

theorem mdBlocks_forall_ne (d : Doc) (i v : List String) (b : String)
    (hb : b ∈ mdBlocks (extract_title d) i v (extract_paragraphs d)) : b ≠ "" := by
  unfold mdBlocks at hb
  rcases List.mem_append.mp hb with hb' | hpara
  · rcases List.mem_append.mp hb' with hb'' | hvid
    · rcases List.mem_append.mp hb'' with htitle | himg
      · cases ht : extract_title d with
        | none =>
          rw [ht] at htitle
          simp at htitle
        | some t =>
          rw [ht] at htitle
          have htne : t ≠ "" := extract_title_ne d t ht
          simp only [if_neg htne] at htitle
          have : b = "# " ++ t := by simpa using htitle
          rw [this]
          exact append_ne_empty "# " t (by decide)
      · obtain ⟨x, _, hbx⟩ := List.mem_map.mp himg
        rw [← hbx]
        exact append_ne_empty ("![Image](" ++ x) ")"
          (append_ne_empty "![Image](" x (by decide))
    · obtain ⟨x, _, hbx⟩ := List.mem_map.mp hvid
      rw [← hbx]
      exact append_ne_empty ("![Video](" ++ x) ")"
        (append_ne_empty "![Video](" x (by decide))
  · exact extract_paragraphs_mem_ne d b hpara

/-! ## Entry-level structure lemmas -/

theorem entryMediaState_mds (c : Codec) (inp : String) (d : Doc) (st : OutState) :
    (entryMediaState c inp d st).mds = st.mds := by
  unfold entryMediaState
  rw [(process_videos_images_mds c (collect_video_paths d inp) _).2,
      (process_images_mds_videos c (collect_image_paths d inp) st).1]

theorem entryMediaState_images_preserved (c : Codec) (inp : String) (d : Doc)
    (st : OutState) (n b : String) (h : findFS n st.images = some b) :
    findFS n (entryMediaState c inp d st).images = some b := by
  unfold entryMediaState
  rw [(process_videos_images_mds c (collect_video_paths d inp) _).1]
  exact process_images_images_preserved c (collect_image_paths d inp) st n b h

theorem entryMediaState_videos_preserved (c : Codec) (inp : String) (d : Doc)
    (st : OutState) (n b : String) (h : findFS n st.videos = some b) :
    findFS n (entryMediaState c inp d st).videos = some b := by
  unfold entryMediaState
  apply process_videos_videos_preserved
  rw [(process_images_mds_videos c (collect_image_paths d inp) st).2]
  exact h

theorem process_entry_ok_eq (pd : String → Option Date) (c : Codec) (inp : String)
    (e : Entry) (st : OutState) (date : Option Date)
    (hd : extract_date pd e.doc = .ok date) :
    process_entry pd c inp e st =
      .ok { entryMediaState c inp e.doc st with
            mds := (out_file_name date e.stem, entryContent c inp e.doc st)
                   :: (entryMediaState c inp e.doc st).mds } := by
  unfold process_entry
  rw [hd]

theorem process_entry_err_eq (pd : String → Option Date) (c : Codec) (inp : String)
    (e : Entry) (st : OutState) (hd : extract_date pd e.doc = .error ()) :
    process_entry pd c inp e st = .error () := by
  unfold process_entry
  rw [hd]

/-! ## Run-twice machinery (claim C4) -/

theorem findFS_append (n : String) (xs ys : FS) :
    findFS n (xs ++ ys) =
      match findFS n xs with
      | some v => some v
      | none => findFS n ys := by
  induction xs with
  | nil => rfl
  | cons kv xs ih =>
    obtain ⟨k, v⟩ := kv
    rw [List.cons_append, findFS_cons, findFS_cons]
    by_cases he : n = k
    · simp [he]
    · simp only [if_neg he]
      exact ih

theorem process_image_of_exists (c : Codec) (p : String) (st : OutState)
    (img : ImgMeta) (hdec : c.decode p = some img)
    (hex : (findFS (imgTargetName p (decisionFmt (classify img))) st.images).isSome) :
    process_image c p st =
      (st, some ("Media/Images/" ++ imgTargetName p (decisionFmt (classify img)))) := by
  unfold process_image
  repeat' split
  all_goals simp_all [decisionFmt]

theorem process_video_of_exists (c : Codec) (p : String) (st : OutState)
    (hex : (findFS (pathName p) st.videos).isSome) :
    process_video c p st = (st, some ("Media/Videos/" ++ pathName p)) := by
  unfold process_video
  rw [if_pos hex]

theorem process_image_good_step (c : Codec) (p : String) (st : OutState)
    (img : ImgMeta) (hdec : c.decode p = some img) (hrb : c.readBytes p ≠ none)
    (henc : ∀ m f, c.encode p m f ≠ none) :
    (process_image c p st).2 =
      some ("Media/Images/" ++ imgTargetName p (decisionFmt (classify img))) ∧
    (findFS (imgTargetName p (decisionFmt (classify img)))
        (process_image c p st).1.images).isSome := by
  unfold process_image
  repeat' split
  all_goals simp_all [decisionFmt, findFS_cons]

theorem process_video_good_step (c : Codec) (p : String) (st : OutState)
    (hrb : c.readBytes p ≠ none) :
    (process_video c p st).2 = some ("Media/Videos/" ++ pathName p) ∧
    (findFS (pathName p) (process_video c p st).1.videos).isSome := by
  unfold process_video
  repeat' split
  all_goals simp_all [findFS_cons]

theorem process_images_findFS_isSome (c : Codec) (ps : List String) (st : OutState)
    (n : String) (h : (findFS n st.images).isSome) :
    (findFS n (process_images c ps st).1.images).isSome := by
  obtain ⟨b, hb⟩ := Option.isSome_iff_exists.mp h
  exact Option.isSome_iff_exists.mpr
    ⟨b, process_images_images_preserved c ps st n b hb⟩

theorem process_videos_findFS_isSome (c : Codec) (ps : List String) (st : OutState)
    (n : String) (h : (findFS n st.videos).isSome) :
    (findFS n (process_videos c ps st).1.videos).isSome := by
  obtain ⟨b, hb⟩ := Option.isSome_iff_exists.mp h
  exact Option.isSome_iff_exists.mpr
    ⟨b, process_videos_videos_preserved c ps st n b hb⟩

theorem process_images_good (c : Codec) (ps : List String) (st : OutState)
    (hg : GoodImages c ps) :
    (process_images c ps st).2 = ps.filterMap (imgRetSpec c) ∧
    (∀ p ∈ ps, ∀ img, c.decode p = some img →
      (findFS (imgTargetName p (decisionFmt (classify img)))
        (process_images c ps st).1.images).isSome) := by
  induction ps generalizing st with
  | nil => exact ⟨rfl, by simp⟩
  | cons p ps ih =>
    have hgrest : GoodImages c ps := fun q hq => hg q (List.mem_cons_of_mem p hq)
    cases hdec : c.decode p with
    | none =>
      have hstep := process_image_of_decode_fail c p st hdec
      have ihs := ih
        { st with errs := ("Failed to process image '" ++ p ++ "'") :: st.errs }
        hgrest
      constructor
      · rw [process_images, hstep, List.filterMap_cons]
        have : imgRetSpec c p = none := by
          unfold imgRetSpec
          rw [hdec]
        rw [this]
        exact ihs.1
      · intro q hq img hdecq
        rcases List.mem_cons.mp hq with hqp | hq'
        · rw [hqp, hdec] at hdecq
          cases hdecq
        · rw [process_images, hstep]
          exact ihs.2 q hq' img hdecq
    | some img =>
      have hgp := hg p (List.mem_cons_self p ps) img hdec
      have step := process_image_good_step c p st img hdec hgp.1 hgp.2
      have ihs := ih (process_image c p st).1 hgrest
      constructor
      · rw [process_images, step.1, List.filterMap_cons]
        have : imgRetSpec c p =
            some ("Media/Images/" ++ imgTargetName p (decisionFmt (classify img))) := by
          unfold imgRetSpec
          rw [hdec]
        rw [this, ihs.1]
      · intro q hq img' hdecq
        rcases List.mem_cons.mp hq with hqp | hq'
        · subst hqp
          rw [hdec] at hdecq
          cases hdecq
          rw [process_images]
          exact process_images_findFS_isSome c ps (process_image c q st).1 _ step.2
        · rw [process_images]
          exact ihs.2 q hq' img' hdecq

theorem process_videos_good (c : Codec) (ps : List String) (st : OutState)
    (hg : GoodVideos c ps) :
    (process_videos c ps st).2 = ps.map (fun p => "Media/Videos/" ++ pathName p) ∧
    (∀ p ∈ ps, (findFS (pathName p) (process_videos c ps st).1.videos).isSome) := by
  induction ps generalizing st with
  | nil => exact ⟨rfl, by simp⟩
  | cons p ps ih =>
    have hgrest : GoodVideos c ps := fun q hq => hg q (List.mem_cons_of_mem p hq)
    have step := process_video_good_step c p st (hg p (List.mem_cons_self p ps))
    have ihs := ih (process_video c p st).1 hgrest
    constructor
    · rw [process_videos, step.1, List.map_cons, ihs.1]
    · intro q hq
      rcases List.mem_cons.mp hq with hqp | hq'
      · subst hqp
        rw [process_videos]
        exact process_videos_findFS_isSome c ps (process_video c q st).1 _ step.2
      · rw [process_videos]
        exact ihs.2 q hq'

theorem process_images_noop (c : Codec) (ps : List String) (st : OutState)
    (hcov : ∀ p ∈ ps, ∀ img, c.decode p = some img →
      (findFS (imgTargetName p (decisionFmt (classify img))) st.images).isSome) :
    (process_images c ps st).1.images = st.images ∧
    (process_images c ps st).2 = ps.filterMap (imgRetSpec c) := by
  induction ps generalizing st with
  | nil => exact ⟨rfl, rfl⟩
  | cons p ps ih =>
    have hcovrest : ∀ q ∈ ps, ∀ img, c.decode q = some img →
        (findFS (imgTargetName q (decisionFmt (classify img))) st.images).isSome :=
      fun q hq => hcov q (List.mem_cons_of_mem p hq)
    cases hdec : c.decode p with
    | none =>
      have hstep := process_image_of_decode_fail c p st hdec
      have ihs := ih
        { st with errs := ("Failed to process image '" ++ p ++ "'") :: st.errs }
        hcovrest
      have hspec : imgRetSpec c p = none := by
        unfold imgRetSpec
        rw [hdec]
      exact ⟨by rw [process_images, hstep]; exact ihs.1,
             by rw [process_images, hstep, List.filterMap_cons, hspec]; exact ihs.2⟩
    | some img =>
      have hstep := process_image_of_exists c p st img hdec
        (hcov p (List.mem_cons_self p ps) img hdec)
      have ihs := ih st hcovrest
      have hspec : imgRetSpec c p =
          some ("Media/Images/" ++ imgTargetName p (decisionFmt (classify img))) := by
        unfold imgRetSpec
        rw [hdec]
      exact ⟨by rw [process_images, hstep]; exact ihs.1,
             by rw [process_images, hstep, List.filterMap_cons, hspec, ihs.2]⟩

theorem process_videos_noop (c : Codec) (ps : List String) (st : OutState)
    (hcov : ∀ p ∈ ps, (findFS (pathName p) st.videos).isSome) :
    (process_videos c ps st).1.videos = st.videos ∧
    (process_videos c ps st).2 = ps.map (fun p => "Media/Videos/" ++ pathName p) := by
  induction ps generalizing st with
  | nil => exact ⟨rfl, rfl⟩
  | cons p ps ih =>
    have hstep := process_video_of_exists c p st (hcov p (List.mem_cons_self p ps))
    have ihs := ih st (fun q hq => hcov q (List.mem_cons_of_mem p hq))
    exact ⟨by rw [process_videos, hstep]; exact ihs.1,
           by rw [process_videos, hstep, List.map_cons, ihs.2]⟩

theorem entry_step_ok_eq (pd : String → Option Date) (c : Codec) (inp : String)
    (st : OutState) (e : Entry) (date : Option Date)
    (hdate : extract_date pd e.doc = .ok date) :
    entry_step pd c inp st e =
      { entryMediaState c inp e.doc st with
        mds := (out_file_name date e.stem, entryContent c inp e.doc st)
               :: (entryMediaState c inp e.doc st).mds } := by
  unfold entry_step
  rw [process_entry_ok_eq pd c inp e st date hdate]

theorem entry_step_err_eq (pd : String → Option Date) (c : Codec) (inp : String)
    (st : OutState) (e : Entry) (hdate : extract_date pd e.doc = .error ()) :
    entry_step pd c inp st e =
      { st with errs := ("Failed to process entry '" ++ e.stem ++ "'") :: st.errs } := by
  unfold entry_step
  rw [process_entry_err_eq pd c inp e st hdate]

theorem entry_step_preserves (pd : String → Option Date) (c : Codec) (inp : String)
    (st : OutState) (e : Entry) :
    (∀ n b, findFS n st.images = some b →
      findFS n (entry_step pd c inp st e).images = some b) ∧
    (∀ n b, findFS n st.videos = some b →
      findFS n (entry_step pd c inp st e).videos = some b) := by
  cases hdate : extract_date pd e.doc with
  | ok date =>
    rw [entry_step_ok_eq pd c inp st e date hdate]
    exact ⟨fun n b hb => entryMediaState_images_preserved c inp e.doc st n b hb,
           fun n b hb => entryMediaState_videos_preserved c inp e.doc st n b hb⟩
  | error u =>
    cases u
    rw [entry_step_err_eq pd c inp st e hdate]
    exact ⟨fun n b hb => hb, fun n b hb => hb⟩

theorem process_files_preserves (pd : String → Option Date) (c : Codec)
    (inp : String) (es : List Entry) (st : OutState) :
    (∀ n b, findFS n st.images = some b →
      findFS n (process_files pd c inp es st).images = some b) ∧
    (∀ n b, findFS n st.videos = some b →
      findFS n (process_files pd c inp es st).videos = some b) := by
  induction es generalizing st with
  | nil => exact ⟨fun n b hb => hb, fun n b hb => hb⟩
  | cons e es ih =>
    have h1 := entry_step_preserves pd c inp st e
    have h2 := ih (entry_step pd c inp st e)
    exact ⟨fun n b hb => by rw [process_files]; exact h2.1 n b (h1.1 n b hb),
           fun n b hb => by rw [process_files]; exact h2.2 n b (h1.2 n b hb)⟩

theorem coveredDoc_mono (c : Codec) (inp : String) (d : Doc) (st st' : OutState)
    (h : CoveredDoc c inp d st)
    (hi : ∀ n b, findFS n st.images = some b → findFS n st'.images = some b)
    (hv : ∀ n b, findFS n st.videos = some b → findFS n st'.videos = some b) :
    CoveredDoc c inp d st' := by
  constructor
  · intro p hp img hdec
    obtain ⟨b, hb⟩ := Option.isSome_iff_exists.mp (h.1 p hp img hdec)
    exact Option.isSome_iff_exists.mpr ⟨b, hi _ b hb⟩
  · intro p hp
    obtain ⟨b, hb⟩ := Option.isSome_iff_exists.mp (h.2 p hp)
    exact Option.isSome_iff_exists.mpr ⟨b, hv _ b hb⟩

theorem coveredDoc_of_eq (c : Codec) (inp : String) (d : Doc) (st st' : OutState)
    (h : CoveredDoc c inp d st) (hi : st'.images = st.images)
    (hv : st'.videos = st.videos) : CoveredDoc c inp d st' := by
  constructor
  · intro p hp img hdec
    rw [hi]
    exact h.1 p hp img hdec
  · intro p hp
    rw [hv]
    exact h.2 p hp

/-- Under no-partial-failure, a date-extracting entry writes the
state-independent Markdown content on top of the incoming Markdown store and
leaves all of its own media targets present. -/
theorem entry_step_good (pd : String → Option Date) (c : Codec) (inp : String)
    (st : OutState) (e : Entry) (date : Option Date)
    (hdate : extract_date pd e.doc = .ok date) (hge : GoodEntry c inp e) :
    (entry_step pd c inp st e).mds =
      (out_file_name date e.stem, entrySpecContent c inp e.doc) :: st.mds ∧
    CoveredDoc c inp e.doc (entry_step pd c inp st e) := by
  have himg := process_images_good c (collect_image_paths e.doc inp) st hge.1
  have hvid := process_videos_good c (collect_video_paths e.doc inp)
    (process_images c (collect_image_paths e.doc inp) st).1 hge.2
  have hcontent : entryContent c inp e.doc st = entrySpecContent c inp e.doc := by
    unfold entryContent entrySpecContent entryImageRels entryVideoRels
      entrySpecImageRels entrySpecVideoRels
    rw [himg.1, hvid.1]
  rw [entry_step_ok_eq pd c inp st e date hdate]
  constructor
  · show (out_file_name date e.stem, entryContent c inp e.doc st)
      :: (entryMediaState c inp e.doc st).mds = _
    rw [entryMediaState_mds, hcontent]
  · constructor
    · intro p hp img hdec
      show (findFS _ (entryMediaState c inp e.doc st).images).isSome
      unfold entryMediaState
      rw [(process_videos_images_mds c (collect_video_paths e.doc inp) _).1]
      exact himg.2 p hp img hdec
    · intro p hp
      show (findFS _ (entryMediaState c inp e.doc st).videos).isSome
      unfold entryMediaState
      exact hvid.2 p hp

/-- After one run, every media target of every date-extracting entry
exists. -/
theorem run_covers (pd : String → Option Date) (c : Codec) (inp : String)
    (es : List Entry) (st : OutState) (hnpf : NoPartialFailure c inp es) :
    Covered pd c inp es (process_files pd c inp es st) := by
  induction es generalizing st with
  | nil =>
    intro e he
    exact absurd he (List.not_mem_nil e)
  | cons e es ih =>
    intro e' he' d hdate
    rcases List.mem_cons.mp he' with he'e | he''
    · subst he'e
      rw [process_files]
      have hcov := (entry_step_good pd c inp st e' d hdate
        (hnpf e' (List.mem_cons_self e' es))).2
      have hpres := process_files_preserves pd c inp es (entry_step pd c inp st e')
      exact coveredDoc_mono c inp e'.doc _ _ hcov hpres.1 hpres.2
    · rw [process_files]
      exact ih (entry_step pd c inp st e)
        (fun q hq => hnpf q (List.mem_cons_of_mem e hq)) e' he'' d hdate

/-- Under no-partial-failure, the Markdown store after a run is the batch's
state-independent writes, newest first, on top of the initial store. -/
theorem run_mds_trace (pd : String → Option Date) (c : Codec) (inp : String)
    (es : List Entry) (st : OutState) (hnpf : NoPartialFailure c inp es) :
    (process_files pd c inp es st).mds =
      (mdWrites pd c inp es).reverse ++ st.mds := by
  induction es generalizing st with
  | nil => rfl
  | cons e es ih =>
    have hnpfrest : NoPartialFailure c inp es :=
      fun q hq => hnpf q (List.mem_cons_of_mem e hq)
    cases hdate : extract_date pd e.doc with
    | ok date =>
      have hgood := entry_step_good pd c inp st e date hdate
        (hnpf e (List.mem_cons_self e es))
      rw [process_files, ih (entry_step pd c inp st e) hnpfrest, hgood.1,
          mdWrites, hdate]
      simp
    | error u =>
      cases u
      rw [process_files, ih (entry_step pd c inp st e) hnpfrest,
          entry_step_err_eq pd c inp st e hdate, mdWrites, hdate]
      simp

/-- On a covered state, a rerun changes neither media store. -/
theorem rerun_media_noop (pd : String → Option Date) (c : Codec) (inp : String)
    (es : List Entry) (st : OutState) (hcov : Covered pd c inp es st) :
    (process_files pd c inp es st).images = st.images ∧
    (process_files pd c inp es st).videos = st.videos := by
  induction es generalizing st with
  | nil => exact ⟨rfl, rfl⟩
  | cons e es ih =>
    have hstep : (entry_step pd c inp st e).images = st.images ∧
        (entry_step pd c inp st e).videos = st.videos := by
      cases hdate : extract_date pd e.doc with
      | ok date =>
        have hcove := hcov e (List.mem_cons_self e es) date hdate
        have himg := process_images_noop c (collect_image_paths e.doc inp) st hcove.1
        have hvidcov : ∀ p ∈ collect_video_paths e.doc inp,
            (findFS (pathName p)
              (process_images c (collect_image_paths e.doc inp) st).1.videos).isSome := by
          intro p hp
          rw [(process_images_mds_videos c (collect_image_paths e.doc inp) st).2]
          exact hcove.2 p hp
        have hvid := process_videos_noop c (collect_video_paths e.doc inp)
          (process_images c (collect_image_paths e.doc inp) st).1 hvidcov
        rw [entry_step_ok_eq pd c inp st e date hdate]
        constructor
        · show (entryMediaState c inp e.doc st).images = st.images
          unfold entryMediaState
          rw [(process_videos_images_mds c (collect_video_paths e.doc inp) _).1]
          exact himg.1
        · show (entryMediaState c inp e.doc st).videos = st.videos
          unfold entryMediaState
          rw [hvid.1]
          exact (process_images_mds_videos c (collect_image_paths e.doc inp) st).2
      | error u =>
        cases u
        rw [entry_step_err_eq pd c inp st e hdate]
        exact ⟨rfl, rfl⟩
    have hcovrest : Covered pd c inp es (entry_step pd c inp st e) := by
      intro q hq d hdate
      exact coveredDoc_of_eq c inp q.doc st _
        (hcov q (List.mem_cons_of_mem e hq) d hdate) hstep.1 hstep.2
    have ihr := ih (entry_step pd c inp st e) hcovrest
    rw [process_files]
    exact ⟨by rw [ihr.1, hstep.1], by rw [ihr.2, hstep.2]⟩

/-! ## Claim theorems -/

/-- C1: for every decoded image, the classifier decision is: a reported
encoding in the supported set {JPEG, PNG} passes through with that same
encoding; otherwise color mode RGBA or LA, or palette mode P with
transparency metadata present, re-encodes to PNG with mode RGBA, and every
other case re-encodes to JPEG with mode RGB.  In particular JPEG passes
through, BMP/RGB re-encodes to JPEG/RGB, GIF/P-with-transparency and
TIFF/LA re-encode to PNG/RGBA. -/
theorem classifier_decision_correct :
    (∀ img : ImgMeta, classify img = claimDecision img) ∧
    (∀ (m : String) (t : Bool), classify ⟨"JPEG", m, t⟩ = .passThrough "JPEG") ∧
    (∀ t : Bool, classify ⟨"BMP", "RGB", t⟩ = .reencode "JPEG" "RGB") ∧
    classify ⟨"GIF", "P", true⟩ = .reencode "PNG" "RGBA" ∧
    (∀ t : Bool, classify ⟨"TIFF", "LA", t⟩ = .reencode "PNG" "RGBA") := by
  refine ⟨?_, ?_, ?_, by decide, ?_⟩
  · intro img
    rcases img with ⟨f, m, tr⟩
    simp only [classify, claimDecision, SUPPORTED_IMAGE_FORMATS, List.mem_cons,
      List.not_mem_nil, or_false]
    split_ifs <;> first | rfl | tauto
  · intro m t
    unfold classify
    rw [if_pos (by simp [SUPPORTED_IMAGE_FORMATS])]
  · intro t
    cases t <;> decide
  · intro t
    cases t <;> decide

/-- C9: for every body-text element, each paragraph's text content is
whitespace-normalized (runs of whitespace collapsed to single spaces,
leading/trailing whitespace removed), empty results are dropped, and the
surviving paragraphs keep document order; the text
`"Hello\n\n  world"` normalizes to `"Hello world"`. -/
theorem paragraphs_whitespace_normalized :
    (∀ d : Doc, extract_paragraphs d =
      (d.paragraphTexts.map claimNormalize).filter (fun t => t ≠ "")) ∧
    reSubWs (getTextStrip "Hello\n\n  world") = "Hello world" ∧
    claimNormalize "Hello\n\n  world" = "Hello world" := by
  refine ⟨?_, by decide, by decide⟩
  intro d
  unfold extract_paragraphs
  rw [show (fun t => reSubWs (getTextStrip t)) = claimNormalize from
        funext pyNormalize_eq_claimNormalize]

/-- C5: the assembled Markdown is the title heading, image embeds, video
embeds and paragraphs, in that order, joined by exactly one blank line, with
one trailing newline iff any block exists; an entry with nothing produces an
empty (zero-byte) file, and title `"T"` with sole paragraph
`"Hello world"` produces `"# T\n\nHello world\n"` exactly. -/
theorem assembled_markdown_layout :
    (∀ (d : Doc) (images videos : List String),
      assemble (extract_title d) images videos (extract_paragraphs d) =
        if mdBlocks (extract_title d) images videos (extract_paragraphs d) = [] then ""
        else joinSep "\n\n"
               (mdBlocks (extract_title d) images videos (extract_paragraphs d)) ++ "\n") ∧
    assemble none [] [] [] = "" ∧
    assemble (some "T") [] [] ["Hello world"] = "# T\n\nHello world\n" ∧
    (∀ (pd : String → Option Date) (c : Codec) (inp : String) (st : OutState),
      process_files pd c inp [eEmpty] st = { st with mds := ("empty.md", "") :: st.mds }) := by
  refine ⟨?_, by decide, by decide, ?_⟩
  · intro d i v
    by_cases hb : mdBlocks (extract_title d) i v (extract_paragraphs d) = []
    · rw [if_pos hb]
      unfold assemble assembleContent
      rw [if_pos hb]
      simp
    · rw [if_neg hb]
      obtain ⟨b, bs, hcons⟩ := List.exists_cons_of_ne_nil hb
      have hbne : b ≠ "" :=
        mdBlocks_forall_ne d i v b (by rw [hcons]; exact List.mem_cons_self b bs)
      have hne : joinSep "\n\n" (mdBlocks (extract_title d) i v (extract_paragraphs d)) ≠ "" := by
        rw [hcons]
        exact joinSep_ne_empty "\n\n" b bs hbne
      unfold assemble assembleContent
      rw [if_neg hb, if_neg hne]
  · intro pd c inp st
    rfl

/-- C7 counterexample: a date with year 5 produces the filename
`"5-01-05.md"`, whose year field is not the four-digit `YYYY` form the
claim states for every extracted date. -/
theorem md_filename_year_unpadded_cex :
    out_file_name (some ⟨5, 1, 5⟩) "entry" = "5-01-05.md" ∧
    out_file_name (some ⟨5, 1, 5⟩) "entry" ≠
      pad4 5 ++ "-" ++ pad2 1 ++ "-" ++ pad2 5 ++ ".md" := by
  decide

/-- C7 amended: the output filename is the year in its unpadded decimal form
followed by two-digit month and day and `".md"` — which coincides with the
four-digit `YYYY-MM-DD.md` form whenever the year is at least 1000 — and the
source file's stem with `".md"` when no date was extracted; page-header text
`"January 5, 2024"` (parsed by the external parser to 2024-01-05) yields the
file `2024-01-05.md`. -/
theorem md_filename_format :
    (∀ (dt : Date) (stem : String), 1000 ≤ dt.year →
      out_file_name (some dt) stem =
        pad4 dt.year ++ "-" ++ pad2 dt.month ++ "-" ++ pad2 dt.day ++ ".md") ∧
    (∀ stem, out_file_name none stem = stem ++ ".md") ∧
    (∀ (pd : String → Option Date) (c : Codec) (inp : String) (e : Entry)
       (st st' : OutState),
      headerJoined e.doc = "January 5, 2024" →
      pd "January 5, 2024" = some ⟨2024, 1, 5⟩ →
      process_entry pd c inp e st = .ok st' →
      (findFS "2024-01-05.md" st'.mds).isSome) := by
  refine ⟨?_, ?_, ?_⟩
  · intro dt stem h
    have h10 : ¬ dt.year < 10 := by omega
    have h100 : ¬ dt.year < 100 := by omega
    have h1000 : ¬ dt.year < 1000 := by omega
    unfold out_file_name pad4
    rw [if_neg h10, if_neg h100, if_neg h1000]
  · intro stem
    rfl
  · intro pd c inp e st st' hhead hpd hok
    have hdate : extract_date pd e.doc = .ok (some ⟨2024, 1, 5⟩) := by
      unfold extract_date
      rw [hhead, if_neg (by decide), hpd]
    rw [process_entry_ok_eq pd c inp e st (some ⟨2024, 1, 5⟩) hdate] at hok
    cases hok
    have hmds : ({ entryMediaState c inp e.doc st with
        mds := (out_file_name (some ⟨2024, 1, 5⟩) e.stem, entryContent c inp e.doc st)
               :: (entryMediaState c inp e.doc st).mds }).mds =
        (out_file_name (some ⟨2024, 1, 5⟩) e.stem, entryContent c inp e.doc st)
        :: (entryMediaState c inp e.doc st).mds := rfl
    rw [hmds]
    have hname : out_file_name (some ⟨2024, 1, 5⟩) e.stem = "2024-01-05.md" := rfl
    rw [hname, findFS_cons, if_pos rfl]
    rfl

/-- C7 witness: the amended statement evaluated at a year-2024 date, at an
absent date, and at a concrete entry whose page header reads
`"January 5, 2024"`. -/
theorem md_filename_format_witness :
    out_file_name (some ⟨2024, 1, 5⟩) "x" =
      pad4 2024 ++ "-" ++ pad2 1 ++ "-" ++ pad2 5 ++ ".md" ∧
    out_file_name none "x" = "x.md" ∧
    (findFS "2024-01-05.md"
      (OutState.mk [] [] [("2024-01-05.md", "")] []).mds).isSome := by
  refine ⟨md_filename_format.1 ⟨2024, 1, 5⟩ "x" (by decide),
          md_filename_format.2.1 "x", ?_⟩
  exact md_filename_format.2.2 pdJan cJpeg "IN" eJan emptySt
    (OutState.mk [] [] [("2024-01-05.md", "")] []) (by decide) (by decide) rfl

/-- C2 counterexample: an entry whose page-header text is non-empty but
rejected by the date parser produces no Markdown file at all — in
particular none named after the source file's stem — refuting the claim
that the entry is still processed to completion. -/
theorem date_parse_failure_drops_entry_cex :
    (process_files (fun _ => none) cNone "IN" [eFail] emptySt).mds = [] ∧
    findFS "entry1.md" (process_files (fun _ => none) cNone "IN" [eFail] emptySt).mds
      = none := by
  decide

/-- C2 amended: when the page-header text is non-empty and the external date
parser fails on it, the parse error raises out of `extract_date` and
`process_entry`; the batch driver catches it, logs a warning naming the
entry, and skips the entry — no Markdown file is produced for it and the
output state is otherwise unchanged. -/
theorem date_parse_failure_skips_entry :
    ∀ (pd : String → Option Date) (c : Codec) (inp : String) (e : Entry)
      (st : OutState),
      headerJoined e.doc ≠ "" → pd (headerJoined e.doc) = none →
      process_entry pd c inp e st = .error () ∧
      process_files pd c inp [e] st =
        { st with errs := ("Failed to process entry '" ++ e.stem ++ "'") :: st.errs } := by
  intro pd c inp e st h1 h2
  have hdate : extract_date pd e.doc = .error () := by
    unfold extract_date
    rw [if_neg h1, h2]
  have herr := process_entry_err_eq pd c inp e st hdate
  refine ⟨herr, ?_⟩
  have hstep : entry_step pd c inp st e =
      { st with errs := ("Failed to process entry '" ++ e.stem ++ "'") :: st.errs } := by
    unfold entry_step
    rw [herr]
  rw [process_files, hstep]
  rfl

/-- C2 witness: the amended statement at a concrete entry and an
always-failing date parser. -/
theorem date_parse_failure_skips_entry_witness :
    process_entry (fun _ => none) cNone "IN" eFail emptySt = .error () ∧
    process_files (fun _ => none) cNone "IN" [eFail] emptySt =
      { emptySt with
        errs := ("Failed to process entry '" ++ eFail.stem ++ "'") :: emptySt.errs } :=
  date_parse_failure_skips_entry (fun _ => none) cNone "IN" eFail emptySt
    (by decide) rfl

/-- C3: a media output target that already exists is never written again —
the output state is unchanged — yet the materializer still returns the
relative output path (for images, once the source decodes so that the
target name is defined; for videos, unconditionally). -/
theorem existing_media_target_not_rewritten :
    (∀ (c : Codec) (p : String) (st : OutState) (img : ImgMeta),
      c.decode p = some img →
      (findFS (imgTargetName p (decisionFmt (classify img))) st.images).isSome →
      process_image c p st =
        (st, some ("Media/Images/" ++ imgTargetName p (decisionFmt (classify img))))) ∧
    (∀ (c : Codec) (p : String) (st : OutState),
      (findFS (pathName p) st.videos).isSome →
      process_video c p st = (st, some ("Media/Videos/" ++ pathName p))) := by
  constructor
  · intro c p st img hdec hex
    unfold process_image
    repeat' split
    all_goals simp_all [decisionFmt]
  · intro c p st hex
    unfold process_video
    repeat' split
    all_goals simp_all

/-- C3 witness: with a JPEG decoding codec and pre-existing targets
`x.jpeg` and `v.mov`, both materializers leave the state untouched and
return the relative paths. -/
theorem existing_media_target_not_rewritten_witness :
    process_image cJpeg "IN/x.jpg" stPre = (stPre, some "Media/Images/x.jpeg") ∧
    process_video cJpeg "IN/v.mov" stPre = (stPre, some "Media/Videos/v.mov") :=
  ⟨existing_media_target_not_rewritten.1 cJpeg "IN/x.jpg" stPre
      ⟨"JPEG", "RGB", false⟩ rfl (by decide),
   existing_media_target_not_rewritten.2 cJpeg "IN/v.mov" stPre (by decide)⟩

/-- C8: for a pass-through image whose target does not exist, the raw byte
copy is attempted first and its bytes written when it succeeds; only when
the raw read fails is the image re-saved in its original encoding; when both
fail nothing is written — so the raw copy and the re-save are never both
performed. -/
theorem passthrough_raw_copy_with_fallback :
    ∀ (c : Codec) (p : String) (st : OutState) (img : ImgMeta) (fmt : String),
      c.decode p = some img → classify img = .passThrough fmt →
      findFS (imgTargetName p fmt) st.images = none →
      ((∀ b, c.readBytes p = some b →
        process_image c p st =
          ({ st with images := (imgTargetName p fmt, b) :: st.images },
           some ("Media/Images/" ++ imgTargetName p fmt))) ∧
       (∀ b, c.readBytes p = none → c.encode p img.mode img.format = some b →
        process_image c p st =
          ({ st with images := (imgTargetName p fmt, b) :: st.images },
           some ("Media/Images/" ++ imgTargetName p fmt))) ∧
       (c.readBytes p = none → c.encode p img.mode img.format = none →
        process_image c p st =
          ({ st with errs := ("Failed to process image '" ++ p ++ "'") :: st.errs },
           none))) := by
  intro c p st img fmt hdec hcls hnone
  refine ⟨?_, ?_, ?_⟩
  · intro b hb
    unfold process_image
    repeat' split
    all_goals simp_all
  · intro b hrb henc
    unfold process_image
    repeat' split
    all_goals simp_all
  · intro hrb henc
    unfold process_image
    repeat' split
    all_goals simp_all

/-- C8 witness: the pass-through statement at a concrete JPEG, once with a
succeeding raw copy (the raw bytes land in the store) and once with a
failing raw copy and a succeeding Pillow re-save (the re-encoded bytes land
in the store). -/
theorem passthrough_raw_copy_with_fallback_witness :
    process_image cJpeg "IN/x.jpg" emptySt =
      ({ emptySt with images := [("x.jpeg", "RAW")] }, some "Media/Images/x.jpeg") ∧
    process_image cFallback "IN/x.jpg" emptySt =
      ({ emptySt with images := [("x.jpeg", "ENC")] }, some "Media/Images/x.jpeg") :=
  ⟨(passthrough_raw_copy_with_fallback cJpeg "IN/x.jpg" emptySt
      ⟨"JPEG", "RGB", false⟩ "JPEG" rfl (by decide) rfl).1 "RAW" rfl,
   (passthrough_raw_copy_with_fallback cFallback "IN/x.jpg" emptySt
      ⟨"JPEG", "RGB", false⟩ "JPEG" rfl (by decide) rfl).2.1 "ENC" rfl rfl⟩

/-- C6: every exception site of image materialization is caught inside
`process_image` — the decode (`Image.open`), the convert-and-save of the
re-encode branch, and the raw copy together with the fallback re-save of the
pass-through branch — each reported as a warning naming the source path,
yielding `none` and leaving every store unchanged; a failing asset (in any
of these modes) contributes no relative path, hence no embed line, while
sibling assets keep theirs unchanged; and an entry whose date extraction
succeeds never raises, whatever its assets do. -/
theorem image_failure_isolated :
    (∀ (c : Codec) (p : String) (st : OutState),
      c.decode p = none →
      process_image c p st =
        ({ st with errs := ("Failed to process image '" ++ p ++ "'") :: st.errs },
         none)) ∧
    (∀ (c : Codec) (p : String) (st : OutState) (img : ImgMeta) (tf tm : String),
      c.decode p = some img → classify img = .reencode tf tm →
      findFS (imgTargetName p tf) st.images = none →
      c.encode p tm tf = none →
      process_image c p st =
        ({ st with errs := ("Failed to process image '" ++ p ++ "'") :: st.errs },
         none)) ∧
    (∀ (c : Codec) (p : String) (st : OutState) (img : ImgMeta) (fmt : String),
      c.decode p = some img → classify img = .passThrough fmt →
      findFS (imgTargetName p fmt) st.images = none →
      c.readBytes p = none → c.encode p img.mode img.format = none →
      process_image c p st =
        ({ st with errs := ("Failed to process image '" ++ p ++ "'") :: st.errs },
         none)) ∧
    (∀ (c : Codec) (bad : String) (ps1 ps2 : List String) (st : OutState),
      process_image c bad (process_images c ps1 st).1 =
        ({ (process_images c ps1 st).1 with
           errs := ("Failed to process image '" ++ bad ++ "'")
                   :: (process_images c ps1 st).1.errs }, none) →
      (process_images c (ps1 ++ bad :: ps2) st).2 =
        (process_images c (ps1 ++ ps2) st).2 ∧
      (process_images c (ps1 ++ bad :: ps2) st).1.images =
        (process_images c (ps1 ++ ps2) st).1.images) ∧
    (∀ (pd : String → Option Date) (c : Codec) (inp : String) (e : Entry)
       (st : OutState) (date : Option Date),
      extract_date pd e.doc = .ok date →
      ∀ u : Unit, process_entry pd c inp e st ≠ .error u) := by
  refine ⟨?_, ?_, ?_, ?_, ?_⟩
  · intro c p st h
    exact process_image_of_decode_fail c p st h
  · intro c p st img tf tm hdec hcls hnone henc
    unfold process_image
    repeat' split
    all_goals simp_all
  · intro c p st img fmt hdec hcls hnone hrb henc
    unfold process_image
    repeat' split
    all_goals simp_all
  · intro c bad ps1 ps2 st hbad
    exact process_images_skip_failed c bad ps2 ps1 st hbad
  · intro pd c inp e st date hdate u h
    rw [process_entry_ok_eq pd c inp e st date hdate] at h
    cases h

/-- C6 witness: each failure mode exercised concretely — a failing decode, a
failing re-encode save on a decodable HEIF, a failing raw copy with failing
fallback save on a decodable JPEG — plus dropping a failing asset from the
middle of a list (the siblings' returned paths are unchanged), and a
date-extracting entry that never errors. -/
theorem image_failure_isolated_witness :
    process_image cNone "IN/bad.jpg" emptySt =
      ({ emptySt with
         errs := ("Failed to process image '" ++ "IN/bad.jpg" ++ "'") :: emptySt.errs },
       none) ∧
    process_image cHeif "IN/d1/x.heic" emptySt =
      ({ emptySt with
         errs := ("Failed to process image '" ++ "IN/d1/x.heic" ++ "'") :: emptySt.errs },
       none) ∧
    process_image cPassFail "IN/x.jpg" emptySt =
      ({ emptySt with
         errs := ("Failed to process image '" ++ "IN/x.jpg" ++ "'") :: emptySt.errs },
       none) ∧
    ((process_images cMixed (["IN/a.jpg"] ++ "IN/bad.jpg" :: ["IN/b.jpg"]) emptySt).2 =
      (process_images cMixed (["IN/a.jpg"] ++ ["IN/b.jpg"]) emptySt).2 ∧
     (process_images cMixed (["IN/a.jpg"] ++ "IN/bad.jpg" :: ["IN/b.jpg"]) emptySt).1.images =
      (process_images cMixed (["IN/a.jpg"] ++ ["IN/b.jpg"]) emptySt).1.images) ∧
    ∀ u : Unit, process_entry pdJan cJpeg "IN" eJan emptySt ≠ .error u :=
  ⟨image_failure_isolated.1 cNone "IN/bad.jpg" emptySt rfl,
   image_failure_isolated.2.1 cHeif "IN/d1/x.heic" emptySt
     ⟨"HEIF", "RGB", false⟩ "JPEG" "RGB" rfl (by decide) rfl (by decide),
   image_failure_isolated.2.2.1 cPassFail "IN/x.jpg" emptySt
     ⟨"JPEG", "RGB", false⟩ "JPEG" rfl (by decide) rfl rfl rfl,
   image_failure_isolated.2.2.2.1 cMixed "IN/bad.jpg" ["IN/a.jpg"] ["IN/b.jpg"]
     emptySt (by decide),
   image_failure_isolated.2.2.2.2 pdJan cJpeg "IN" eJan emptySt (some ⟨2024, 1, 5⟩)
     rfl⟩

/-- C10: the never-overwrite guarantee covers only media: whenever an entry
is processed to completion its Markdown file is written unconditionally on
top of whatever the output state held, while every pre-existing file in the
image and video stores keeps its bytes. -/
theorem md_rewritten_media_never :
    ∀ (pd : String → Option Date) (c : Codec) (inp : String) (e : Entry)
      (st st' : OutState),
      process_entry pd c inp e st = .ok st' →
      ((∃ content, st'.mds =
        (out_file_name (match extract_date pd e.doc with
                        | .ok d => d
                        | .error _ => none) e.stem, content) :: st.mds) ∧
       (∀ n b, findFS n st.images = some b → findFS n st'.images = some b) ∧
       (∀ n b, findFS n st.videos = some b → findFS n st'.videos = some b)) := by
  intro pd c inp e st st' hok
  cases hdate : extract_date pd e.doc with
  | error u =>
    cases u
    rw [process_entry_err_eq pd c inp e st hdate] at hok
    cases hok
  | ok date =>
    rw [process_entry_ok_eq pd c inp e st date hdate] at hok
    cases hok
    refine ⟨⟨entryContent c inp e.doc st, ?_⟩, ?_, ?_⟩
    · show (out_file_name date e.stem, entryContent c inp e.doc st)
        :: (entryMediaState c inp e.doc st).mds = _
      rw [entryMediaState_mds]
    · intro n b hb
      exact entryMediaState_images_preserved c inp e.doc st n b hb
    · intro n b hb
      exact entryMediaState_videos_preserved c inp e.doc st n b hb

/-- C10 witness: processing the empty entry on top of a populated output
tree rewrites its Markdown file and preserves the pre-existing media
bytes. -/
theorem md_rewritten_media_never_witness :
    (∃ content,
      (OutState.mk [("x.jpeg", "B")] [("v.mov", "V")]
        [("empty.md", ""), ("empty.md", "OLDMD")] []).mds =
      (out_file_name (match extract_date (fun _ => none) eEmpty.doc with
                      | .ok d => d
                      | .error _ => none) eEmpty.stem, content) :: stPre.mds) ∧
    (∀ n b, findFS n stPre.images = some b →
      findFS n (OutState.mk [("x.jpeg", "B")] [("v.mov", "V")]
        [("empty.md", ""), ("empty.md", "OLDMD")] []).images = some b) ∧
    (∀ n b, findFS n stPre.videos = some b →
      findFS n (OutState.mk [("x.jpeg", "B")] [("v.mov", "V")]
        [("empty.md", ""), ("empty.md", "OLDMD")] []).videos = some b) :=
  md_rewritten_media_never (fun _ => none) cJpeg "IN" eEmpty stPre
    (OutState.mk [("x.jpeg", "B")] [("v.mov", "V")]
      [("empty.md", ""), ("empty.md", "OLDMD")] []) rfl

/-- C4 counterexample: two sources (`d1/x.heic`, `d2/x.heic`) share the
output target `x.jpeg`; the first decodes but fails to re-encode while the
second succeeds.  In the first run the first source yields no embed; in the
second run its target exists, so it yields an embed — the entry's Markdown
file differs between the runs. -/
theorem batch_rerun_not_idempotent_cex :
    findFS "e.md"
      (process_files (fun _ => none) cHeif "IN" [eCollide]
        (process_files (fun _ => none) cHeif "IN" [eCollide] emptySt)).mds ≠
    findFS "e.md" (process_files (fun _ => none) cHeif "IN" [eCollide] emptySt).mds := by
  decide

/-- C4 amended: provided no media materialization fails partway — every
image source either fails to decode or has both its raw read and any
re-encode succeed, and every video read succeeds — running the batch a
second time on the output of the first leaves both media stores literally
unchanged and produces a Markdown store with byte-identical contents. -/
theorem batch_rerun_idempotent :
    ∀ (pd : String → Option Date) (c : Codec) (inp : String) (es : List Entry)
      (st0 : OutState),
      NoPartialFailure c inp es →
      (process_files pd c inp es (process_files pd c inp es st0)).images =
        (process_files pd c inp es st0).images ∧
      (process_files pd c inp es (process_files pd c inp es st0)).videos =
        (process_files pd c inp es st0).videos ∧
      (∀ n, findFS n (process_files pd c inp es
          (process_files pd c inp es st0)).mds =
        findFS n (process_files pd c inp es st0).mds) := by
  intro pd c inp es st0 hnpf
  have hcov := run_covers pd c inp es st0 hnpf
  have hmedia := rerun_media_noop pd c inp es (process_files pd c inp es st0) hcov
  refine ⟨hmedia.1, hmedia.2, ?_⟩
  intro n
  have h2 := run_mds_trace pd c inp es st0 hnpf
  have h1 := run_mds_trace pd c inp es (process_files pd c inp es st0) hnpf
  rw [h1, h2, findFS_append, findFS_append]
  cases findFS n (mdWrites pd c inp es).reverse <;> rfl

/-- C4 witness: the amended statement at a concrete one-entry batch whose
image decodes as a JPEG and whose reads and encodes all succeed. -/
theorem batch_rerun_idempotent_witness :
    (process_files (fun _ => none) cJpeg "IN" [eAsset]
        (process_files (fun _ => none) cJpeg "IN" [eAsset] emptySt)).images =
      (process_files (fun _ => none) cJpeg "IN" [eAsset] emptySt).images ∧
    (process_files (fun _ => none) cJpeg "IN" [eAsset]
        (process_files (fun _ => none) cJpeg "IN" [eAsset] emptySt)).videos =
      (process_files (fun _ => none) cJpeg "IN" [eAsset] emptySt).videos ∧
    (∀ n, findFS n (process_files (fun _ => none) cJpeg "IN" [eAsset]
        (process_files (fun _ => none) cJpeg "IN" [eAsset] emptySt)).mds =
      findFS n (process_files (fun _ => none) cJpeg "IN" [eAsset] emptySt).mds) :=
  batch_rerun_idempotent (fun _ => none) cJpeg "IN" [eAsset] emptySt
    (by
      intro e he
      exact ⟨fun p hp img hdec => ⟨by simp [cJpeg], fun m f => by simp [cJpeg]⟩,
             fun p hp => by simp [cJpeg]⟩)

end J2M
